import Mathlib

/-!
Verification of the PRD-generator document pipeline (src/app.py).

Strings are modelled as `List Char`.  Python's `re` operations used by the
source are small and concrete, so each one is embedded as an executable
scanner with exactly the source regex's leftmost / greedy / non-greedy
backtracking behaviour:

* `extract_prd`   — `re.search(r"<PRD_START>([\s\S]*?)<PRD_END>", text)` and
                    `re.sub` of the same pattern (app.py lines 96-103);
* `extract_title` — `re.search(r"^#\s+(.+)$", prd, re.MULTILINE)` (106-108);
* `md_inline`/`il`— the three sequential `re.sub` emphasis substitutions
                    (111-116 and 176-180);
* `prd_to_html`   — the line state machine (119-152);
* `generate_pdf`  — the platypus story built by lines 182-217, abstracted to
                    a list of flowables (theme constants and the final byte
                    serialisation by ReportLab are outside the model);
* `safe_name`     — the download-filename sanitiser (351-356);
* `handleTurn`    — the chat-input handler (394-433), with the streaming
                    outcome (success / raised exception) passed as data and
                    the wall-clock timestamps passed as parameters.

Character classes (`\s`, `\d`, `str.strip`, `str.upper`) are modelled over
ASCII, which is the alphabet of every counterexample and witness below.
-/

/-- ASCII whitespace, the (ASCII fragment of the) class matched by Python's
regex `\s` and stripped by `str.strip()`. -/
def isSpace (c : Char) : Bool :=
  decide (c = ' ' ∨ c = '\t' ∨ c = '\n' ∨ c = '\x0b' ∨ c = '\x0c' ∨ c = '\r')

/-- ASCII digits, the (ASCII fragment of the) class matched by `\d` / `[0-9]`. -/
def isDigit (c : Char) : Bool :=
  decide ('0' ≤ c ∧ c ≤ '9')

/-- Python `str.strip()`: remove leading and trailing whitespace. -/
def strip (l : List Char) : List Char :=
  ((l.dropWhile isSpace).reverse.dropWhile isSpace).reverse

/-- Python `str.split("\n")`: split into lines at every newline.
`splitLines [] = [[]]`, matching `"".split("\n") == [""]`. -/
def splitLines : List Char → List (List Char)
  | [] => [[]]
  | '\n' :: s => [] :: splitLines s
  | c :: s => (splitLines s).modifyHead (c :: ·)

/-- `"\n".join(out)`. -/
def joinNl (out : List (List Char)) : List Char :=
  List.intercalate ['\n'] out

/-- The literal start marker `<PRD_START>`. -/
def startD : List Char := ("<PRD_START>").data

/-- The literal end marker `<PRD_END>`. -/
def endD : List Char := ("<PRD_END>").data

/-- Index of the leftmost occurrence of `pat` in the list (regex search for a
literal pattern). -/
def firstOcc (pat : List Char) : List Char → Option Nat
  | [] => if pat.isPrefixOf ([] : List Char) then some 0 else none
  | c :: s => if pat.isPrefixOf (c :: s) then some 0 else (firstOcc pat s).map (· + 1)

/-- Leftmost match of `<PRD_START>([\s\S]*?)<PRD_END>`: returns
`(start index of the match, length of group 1)`.  The engine tries start
positions left to right; at a position where `<PRD_START>` matches, the
non-greedy group takes the nearest following `<PRD_END>`; if there is none,
the engine moves on to the next start position. -/
def findMatch : List Char → Option (Nat × Nat)
  | [] => none
  | c :: s =>
    if startD.isPrefixOf (c :: s) then
      match firstOcc endD ((c :: s).drop startD.length) with
      | some k => some (0, k)
      | none => (findMatch s).map (fun p => (p.1 + 1, p.2))
    else (findMatch s).map (fun p => (p.1 + 1, p.2))

/-- One pass of `re.sub(r"<PRD_START>[\s\S]*?<PRD_END>", "", text)`: remove
every non-overlapping match, scanning left to right.  Every match consumes at
least the two markers, so `length + 1` fuel is always enough. -/
def removeMatchesFuel : Nat → List Char → List Char
  | 0, s => s
  | f + 1, s =>
    match findMatch s with
    | none => s
    | some (i, k) => s.take i ++ removeMatchesFuel f (s.drop (i + startD.length + k + endD.length))

/-- `re.sub(r"<PRD_START>[\s\S]*?<PRD_END>", "", text)`. -/
def removeMatches (s : List Char) : List Char :=
  removeMatchesFuel (s.length + 1) s

/-- app.py `extract_prd` (lines 96-103): returns
`(prd_content | none, commentary)`. -/
def extract_prd (text : List Char) : Option (List Char) × List Char :=
  match findMatch text with
  | some (i, k) =>
    (some (strip ((text.drop (i + startD.length)).take k)), strip (removeMatches text))
  | none => (none, text)

/-- Length of the maximal whitespace run at the head (greedy `\s+`,
before backtracking). -/
def wsRun (s : List Char) : Nat :=
  (s.takeWhile isSpace).length

/-- `(.+)$` at `s`: greedy `.` (anything but newline) at least once, then `$`
(end of string or just before a newline).  After the maximal non-newline run
the next character is a newline or the end, so `$` needs no backtracking. -/
def dotPlus (s : List Char) : Option (List Char) :=
  let body := s.takeWhile (fun c => !(c == '\n'))
  if body.isEmpty then none else some body

/-- Backtracking over the length of `\s+` (greedy: longest first), `s` being
the text right after the `#`.  `tryWs j s` tries whitespace lengths
`j, j-1, …, 1`. -/
def tryWs : Nat → List Char → Option (List Char)
  | 0, _ => none
  | j + 1, s =>
    match dotPlus (s.drop (j + 1)) with
    | some body => some body
    | none => tryWs j s

/-- Attempt to match `#\s+(.+)$` at a position already known to be a line
start; returns group 1 on success. -/
def matchTitleAt : List Char → Option (List Char)
  | [] => none
  | c :: rest =>
    if c = '#' then
      if 0 < wsRun rest then tryWs (wsRun rest) rest else none
    else none

/-- `re.search(r"^#\s+(.+)$", prd, re.M)`: try every line-start position left
to right (`bol` records whether the current position is a line start). -/
def findTitleAux : Bool → List Char → Option (List Char)
  | _, [] => none
  | bol, c :: s =>
    if bol then
      match matchTitleAt (c :: s) with
      | some b => some b
      | none => findTitleAux (c == '\n') s
    else findTitleAux (c == '\n') s

/-- app.py `extract_title` (lines 106-108).  `datetime.now().strftime('%d %b %Y')`
is impure; the formatted date is passed in as `today`. -/
def extract_title (today prd : List Char) : List Char :=
  match findTitleAux true prd with
  | some b => strip b
  | none => ("PRD – ").data ++ today

/-- A line that cannot begin a title match: it does not start with `#`, or
its `#` is immediately followed by a non-whitespace character (a bare `#`
line is excluded, since the following line break is whitespace the regex
`\s+` can consume). -/
def lineNoTitleStart (l : List Char) : Bool :=
  match l with
  | '#' :: [] => false
  | '#' :: c :: _ => !isSpace c
  | _ => true

/-- Non-greedy capture `(.+?)` followed by the closing delimiter `cls`:
the shortest non-empty newline-free prefix after which `cls` matches. -/
def findCapture (cls : List Char) : List Char → Option (List Char)
  | [] => none
  | c :: s =>
    if c == '\n' then none
    else if cls.isPrefixOf s then some [c]
    else (findCapture cls s).map (c :: ·)

/-- One global `re.sub` of `opn (.+?) cls → ro ⟨capture⟩ rc`: scan left to
right; where the delimited pattern matches, emit the replacement and continue
after the match; otherwise emit one character and continue.  Each step
consumes at least one character, so `length` fuel suffices. -/
def substEmphFuel (opn cls ro rc : List Char) : Nat → List Char → List Char
  | 0, s => s
  | _ + 1, [] => []
  | f + 1, c :: t =>
    if opn.isPrefixOf (c :: t) then
      match findCapture cls ((c :: t).drop opn.length) with
      | some cap =>
        ro ++ cap ++ rc ++
          substEmphFuel opn cls ro rc f ((c :: t).drop (opn.length + cap.length + cls.length))
      | none => c :: substEmphFuel opn cls ro rc f t
    else c :: substEmphFuel opn cls ro rc f t

/-- `re.sub` of one emphasis pattern over a whole string. -/
def substEmph (opn cls ro rc s : List Char) : List Char :=
  substEmphFuel opn cls ro rc s.length s

/-- app.py `md_inline` (lines 111-116): bold, then italic, then code. -/
def md_inline (text : List Char) : List Char :=
  substEmph (("`").data) (("`").data) (("<code>").data) (("</code>").data)
    (substEmph (("*").data) (("*").data) (("<em>").data) (("</em>").data)
      (substEmph (("**").data) (("**").data) (("<strong>").data) (("</strong>").data) text))

/-- app.py `il` inside `generate_pdf` (lines 176-180): same passes with the
ReportLab tag names. -/
def il (t : List Char) : List Char :=
  substEmph (("`").data) (("`").data) (("<font face=\"Courier\">").data) (("</font>").data)
    (substEmph (("*").data) (("*").data) (("<i>").data) (("</i>").data)
      (substEmph (("**").data) (("**").data) (("<b>").data) (("</b>").data) t))

/-- `re.match(r"^\d+\. ", line)`: one or more digits, a literal dot, a space.
The greedy digit run is maximal; backtracking cannot change the outcome since
a shorter run leaves a digit where the dot is required. -/
def isOrderedLine (l : List Char) : Bool :=
  !(l.takeWhile isDigit).isEmpty && ((l.drop (l.takeWhile isDigit).length).take 2 == ['.', ' '])

/-- The Python `close()` helper of `prd_to_html`: emit `</ul>` if an
unordered list is open, then `</ol>` if an ordered list is open.
State is `(in_ul, in_ol)`. -/
def closeTags (st : Bool × Bool) : List (List Char) :=
  (if st.1 then [("</ul>").data] else []) ++ (if st.2 then [("</ol>").data] else [])

/-- One iteration of the `prd_to_html` line loop (app.py lines 129-149):
returns the emitted markup strings and the next `(in_ul, in_ol)` state.
For an ordered item the emitted text is the line with the regex
`^[0-9]+. ` removed: on a line that was dispatched by `^\d+\. ` this strips
exactly the digit run, the dot and the space. -/
def renderLine (st : Bool × Bool) (l : List Char) : List (List Char) × (Bool × Bool) :=
  if l.take 2 = ("# ").data then
    (closeTags st ++ [("<h1>").data ++ l.drop 2 ++ ("</h1>").data], (false, false))
  else if l.take 3 = ("## ").data then
    (closeTags st ++ [("<h2>").data ++ l.drop 3 ++ ("</h2>").data], (false, false))
  else if l.take 4 = ("### ").data then
    (closeTags st ++ [("<h3>").data ++ l.drop 4 ++ ("</h3>").data], (false, false))
  else if l.take 2 = ("- ").data ∨ l.take 2 = ("* ").data then
    ((if st.2 then [("</ol>").data] else []) ++ (if st.1 then [] else [("<ul>").data]) ++
      [("<li>").data ++ md_inline (l.drop 2) ++ ("</li>").data], (true, false))
  else if isOrderedLine l then
    ((if st.1 then [("</ul>").data] else []) ++ (if st.2 then [] else [("<ol>").data]) ++
      [("<li>").data ++ md_inline (l.drop ((l.takeWhile isDigit).length + 2)) ++ ("</li>").data],
      (false, true))
  else if l.take 3 = ("---").data then
    (closeTags st ++ [("<hr>").data], (false, false))
  else if l.all isSpace then
    (closeTags st ++ [("<div style=\x27height:5px\x27></div>").data], (false, false))
  else
    (closeTags st ++ [("<p>").data ++ md_inline l ++ ("</p>").data], (false, false))

/-- The `prd_to_html` loop over the lines, closing any open list at the end. -/
def htmlLines : Bool × Bool → List (List Char) → List (List Char)
  | st, [] => closeTags st
  | st, l :: ls => (renderLine st l).1 ++ htmlLines (renderLine st l).2 ls

/-- app.py `prd_to_html` (lines 119-152). -/
def prd_to_html (content : List Char) : List Char :=
  joinNl (htmlLines (false, false) (splitLines content))

/-- Paragraph styles of the PDF backend (theme constants abstracted away). -/
inductive PStyle
  | h1
  | h2
  | h3
  | body
  | bullet
  | meta
deriving DecidableEq

/-- Abstract ReportLab flowables: styled paragraphs, horizontal rules,
spacers (dimensions and colors are theme constants, outside the model). -/
inductive Flowable
  | par (style : PStyle) (text : List Char)
  | hr
  | spc
deriving DecidableEq

/-- Python `str.upper()` on the ASCII fragment. -/
def upperLine (l : List Char) : List Char :=
  l.map Char.toUpper

/-- One iteration of the `generate_pdf` line loop (app.py lines 191-210).
For an ordered item, `n` is group 1 of `re.match(r"^(\d+)\.", line)` (the
maximal digit run) and the text is the line with `re.sub(r"^\d+\. ", "", …)`
applied, i.e. the digit run, dot and space removed. -/
def pdfLine (l : List Char) : List Flowable :=
  if l.take 2 = ("# ").data then []
  else if l.take 3 = ("## ").data then
    [Flowable.hr, Flowable.par PStyle.h2 (upperLine (l.drop 3))]
  else if l.take 4 = ("### ").data then
    [Flowable.par PStyle.h3 (il (l.drop 4))]
  else if l.take 2 = ("- ").data ∨ l.take 2 = ("* ").data then
    [Flowable.par PStyle.bullet (("• &nbsp;").data ++ il (l.drop 2))]
  else if isOrderedLine l then
    [Flowable.par PStyle.bullet
      (("<b>").data ++ l.takeWhile isDigit ++ (".</b> &nbsp;").data ++
        il (l.drop ((l.takeWhile isDigit).length + 2)))]
  else if l.take 3 = ("---").data then [Flowable.hr]
  else if l.all isSpace then [Flowable.spc]
  else [Flowable.par PStyle.body (il l)]

/-- app.py `generate_pdf` (lines 155-220), abstracted to the story list built
before `doc.build`; `today` stands for `datetime.now().strftime('%d %B %Y')`. -/
def generate_pdf (prd_content title today : List Char) : List Flowable :=
  ([Flowable.par PStyle.meta (("PRODUCT REQUIREMENTS DOCUMENT").data),
    Flowable.spc,
    Flowable.par PStyle.h1 title,
    Flowable.spc,
    Flowable.par PStyle.meta (("PRD Generator · AI Co-Pilot &nbsp;|&nbsp; ").data ++ today),
    Flowable.hr] ++
   ((splitLines prd_content).map pdfLine).flatten ++
   [Flowable.spc, Flowable.hr, Flowable.spc,
    Flowable.par PStyle.meta
      (("© 2026 Vaishnavi R.B. · PRD Generator — AI Product Co-Pilot · All rights reserved.").data)])

/-- The character class `[a-zA-Z0-9_\- ]` kept by the filename sanitiser. -/
def keepChar (c : Char) : Bool :=
  decide (('a' ≤ c ∧ c ≤ 'z') ∨ ('A' ≤ c ∧ c ≤ 'Z') ∨ ('0' ≤ c ∧ c ≤ '9') ∨
    c = '_' ∨ c = '-' ∨ c = ' ')

/-- app.py line 352: `re.sub(r"[^a-zA-Z0-9_\- ]", "", title)[:40].replace(" ", "_")`. -/
def safe_name (title : List Char) : List Char :=
  ((title.filter keepChar).take 40).map (fun c => if c = ' ' then '_' else c)

/-- app.py line 354: `file_name=f"PRD_{safe_name}.pdf"`. -/
def download_filename (title : List Char) : List Char :=
  ("PRD_").data ++ safe_name title ++ (".pdf").data

/-- Conversation roles. -/
inductive Role
  | user
  | assistant
deriving DecidableEq

/-- One conversation turn, `{role, content}`. -/
structure Msg where
  role : Role
  content : List Char
deriving DecidableEq

/-- One Document Record appended to `st.session_state.prds`. -/
structure DocRec where
  title : List Char
  content : List Char
  timestamp : List Char
deriving DecidableEq

/-- Outcome of consuming the streaming generator for one turn: either the
full accumulated message, or an exception raised mid-stream (carrying the
partially streamed text, which the handler discards, and the exception's
rendered message `e`). -/
inductive StreamResult
  | ok (full : List Char)
  | err (streamed : List Char) (emsg : List Char)

/-- The synthetic assistant message built in the `except` branch
(app.py lines 414-419). -/
def errorText (model emsg : List Char) : List Char :=
  ("⚠️ **Ollama connection error.**\n\nRun: `ollama serve`  \nPull model: `ollama pull ").data ++
    model ++ ("`\n\nError: `").data ++ emsg ++ ("`").data

/-- The chat-input handler (app.py lines 394-433): append the user turn,
resolve the streamed assistant content (the synthetic error text on a raised
exception, overwriting any partially streamed content), append the assistant
turn, and append a Document Record when `extract_prd` finds a non-empty
block (Python truthiness: an empty block string is falsy). -/
def handleTurn (msgs : List Msg) (prds : List DocRec) (input : List Char)
    (res : StreamResult) (model today ts : List Char) : List Msg × List DocRec :=
  let full :=
    match res with
    | StreamResult.ok f => f
    | StreamResult.err _ e => errorText model e
  let msgs2 := (msgs ++ [⟨Role.user, input⟩]) ++ [⟨Role.assistant, full⟩]
  match extract_prd full with
  | (some prd, _) =>
    if prd.isEmpty then (msgs2, prds)
    else (msgs2, prds ++ [⟨extract_title today prd, prd, ts⟩])
  | (none, _) => (msgs2, prds)

/-! ### Occurrence lemmas for the literal markers -/

/-- `pat` has no nontrivial border: no proper nonempty prefix of `pat` is
also a suffix.  This rules out marker occurrences that straddle the boundary
between surrounding text and a planted marker. -/
def noBorder (pat : List Char) : Prop :=
  ∀ m, m < pat.length → 0 < m → pat.drop m ≠ pat.take (pat.length - m)

theorem startD_noBorder : noBorder startD := by
  unfold noBorder
  decide

theorem endD_noBorder : noBorder endD := by
  unfold noBorder
  decide

/-- If `pat` does not occur inside the nonempty list `u` and has no
nontrivial border, then `pat` is not a prefix of `u ++ pat ++ v`. -/
theorem not_prefix_of_marked (pat u v : List Char) (hne : u ≠ []) (hnb : noBorder pat)
    (hu : ¬ pat <:+: u) : ¬ pat <+: (u ++ (pat ++ v)) := by
  rintro ⟨t, ht⟩
  rcases List.append_eq_append_iff.mp ht with ⟨a, ha, _⟩ | ⟨b, hb, htb⟩
  · exact hu (List.IsPrefix.isInfix ⟨a, ha.symm⟩)
  · rcases eq_or_ne b [] with rfl | hbne
    · rw [List.append_nil] at hb
      exact hu ⟨[], [], by simp [hb]⟩
    · rcases List.append_eq_append_iff.mp htb with ⟨a2, ha2, _⟩ | ⟨c2, hc2, _⟩
      · have h1 : pat.length = u.length + b.length := by rw [hb]; simp
        have h2 : b.length = pat.length + a2.length := by rw [ha2]; simp
        have h3 : 0 < u.length := List.length_pos.mpr hne
        omega
      · have hm : 0 < u.length := List.length_pos.mpr hne
        have hlen : pat.length = u.length + b.length := by rw [hb]; simp
        have hbpos : 0 < b.length := List.length_pos.mpr hbne
        have hdrop : pat.drop u.length = b := by rw [hb, List.drop_left]
        have htake : pat.take (pat.length - u.length) = b := by
          have he : pat.length - u.length = b.length := by omega
          rw [he, hc2, List.take_left]
        exact hnb u.length (by omega) hm (hdrop.trans htake.symm)

theorem firstOcc_cons_pos {pat s : List Char} (h : pat.isPrefixOf s = true) (hs : s ≠ []) :
    firstOcc pat s = some 0 := by
  cases s with
  | nil => exact absurd rfl hs
  | cons c t => simp [firstOcc, h]

theorem firstOcc_cons_neg {pat : List Char} (c : Char) (t : List Char)
    (h : pat.isPrefixOf (c :: t) = false) :
    firstOcc pat (c :: t) = (firstOcc pat t).map (· + 1) := by
  simp [firstOcc, h]

/-- Leftmost occurrence of a planted pattern: if `pat` does not occur inside
`u` and has no nontrivial border, its first occurrence in `u ++ pat ++ v` is
at index `u.length`. -/
theorem firstOcc_marked (pat v : List Char) (hpne : pat ≠ []) (hnb : noBorder pat) :
    ∀ u : List Char, ¬ pat <:+: u → firstOcc pat (u ++ (pat ++ v)) = some u.length := by
  intro u
  induction u with
  | nil =>
    intro _
    rw [List.nil_append]
    rw [firstOcc_cons_pos (by rw [ List.isPrefixOf_iff_prefix]; exact List.prefix_append pat v)
      (by simp [hpne])]
    rfl
  | cons c u' ih =>
    intro hu
    have hpre : pat.isPrefixOf (c :: (u' ++ (pat ++ v))) = false := by
      cases hp : pat.isPrefixOf (c :: (u' ++ (pat ++ v))) with
      | false => rfl
      | true =>
        exfalso
        have hx := ( List.isPrefixOf_iff_prefix).mp hp
        exact not_prefix_of_marked pat (c :: u') v (by simp) hnb hu (by simpa using hx)
    rw [List.cons_append, firstOcc_cons_neg c _ hpre,
      ih (fun hx => hu (List.infix_cons hx))]
    simp

theorem findMatch_cons_pos {s : List Char} {k : Nat}
    (h : startD.isPrefixOf s = true) (hk : firstOcc endD (s.drop startD.length) = some k) :
    findMatch s = some (0, k) := by
  cases s with
  | nil => exact absurd h (by decide)
  | cons c t => simp [findMatch, h, hk]

theorem findMatch_cons_neg {c : Char} {t : List Char}
    (h : startD.isPrefixOf (c :: t) = false) :
    findMatch (c :: t) = (findMatch t).map (fun p => (p.1 + 1, p.2)) := by
  simp [findMatch, h]

/-- Position and group of the regex match on marker-delimited text: when the
markers do not occur in `pre` or `A`, the match starts at `pre.length` and
group 1 is exactly `A`. -/
theorem findMatch_marked (A post : List Char) (hA : ¬ endD <:+: A) :
    ∀ pre : List Char, ¬ startD <:+: pre →
      findMatch (pre ++ (startD ++ (A ++ (endD ++ post)))) = some (pre.length, A.length) := by
  intro pre
  induction pre with
  | nil =>
    intro _
    rw [List.nil_append]
    rw [findMatch_cons_pos (k := A.length)
      (by rw [ List.isPrefixOf_iff_prefix]; exact List.prefix_append startD _)
      (by rw [List.drop_left]; exact firstOcc_marked endD post (by decide) endD_noBorder A hA)]
    rfl
  | cons c pre' ih =>
    intro hu
    have hpre : startD.isPrefixOf (c :: (pre' ++ (startD ++ (A ++ (endD ++ post))))) = false := by
      cases hp : startD.isPrefixOf (c :: (pre' ++ (startD ++ (A ++ (endD ++ post))))) with
      | false => rfl
      | true =>
        exfalso
        have hx := ( List.isPrefixOf_iff_prefix).mp hp
        exact not_prefix_of_marked startD (c :: pre') (A ++ (endD ++ post)) (by simp)
          startD_noBorder hu (by simpa using hx)
    rw [List.cons_append, findMatch_cons_neg hpre,
      ih (fun hx => hu (List.infix_cons hx))]
    simp

/-- If the start marker does not occur in `s` at all there is no match. -/
theorem findMatch_none_of_no_start (s : List Char) (hs : ¬ startD <:+: s) :
    findMatch s = none := by
  induction s with
  | nil => rfl
  | cons c t ih =>
    have hpre : startD.isPrefixOf (c :: t) = false := by
      cases hp : startD.isPrefixOf (c :: t) with
      | false => rfl
      | true => exact absurd (List.IsPrefix.isInfix (( List.isPrefixOf_iff_prefix).mp hp)) hs
    rw [findMatch_cons_neg hpre, ih (fun hx => hs (List.infix_cons hx))]
    rfl

theorem removeMatchesFuel_none {s : List Char} (h : findMatch s = none) :
    ∀ f, removeMatchesFuel f s = s := by
  intro f
  cases f with
  | zero => rfl
  | succ f => simp [removeMatchesFuel, h]

/-- Unfolding `removeMatchesFuel` one step on a successful match. -/
theorem removeMatchesFuel_succ_some {s : List Char} {i k f : Nat}
    (h : findMatch s = some (i, k)) :
    removeMatchesFuel (f + 1) s =
      s.take i ++ removeMatchesFuel f (s.drop (i + startD.length + k + endD.length)) := by
  simp [removeMatchesFuel, h]

/-- Unfolding `extract_prd` on a successful match. -/
theorem extract_prd_eq_of_some {text : List Char} {i k : Nat}
    (h : findMatch text = some (i, k)) :
    extract_prd text =
      (some (strip ((text.drop (i + startD.length)).take k)), strip (removeMatches text)) := by
  simp [extract_prd, h]

/-- Full computation of `extract_prd` on marker-delimited text. -/
theorem extract_prd_split_eq (pre A post : List Char)
    (hpre : ¬ startD <:+: pre) (hA : ¬ endD <:+: A) (hpost : ¬ startD <:+: post) :
    extract_prd (pre ++ (startD ++ (A ++ (endD ++ post)))) =
      (some (strip A), strip (pre ++ post)) := by
  have hfm := findMatch_marked A post hA pre hpre
  have hgrp : (pre ++ (startD ++ (A ++ (endD ++ post)))).drop (pre.length + startD.length) =
      A ++ (endD ++ post) := by
    rw [show pre ++ (startD ++ (A ++ (endD ++ post))) =
        (pre ++ startD) ++ (A ++ (endD ++ post)) from by simp]
    exact List.drop_left' (by simp)
  have htail : (pre ++ (startD ++ (A ++ (endD ++ post)))).drop
      (pre.length + startD.length + A.length + endD.length) = post := by
    rw [show pre ++ (startD ++ (A ++ (endD ++ post))) =
        (pre ++ startD ++ A ++ endD) ++ post from by simp]
    refine List.drop_left' ?_
    simp
    omega
  have hhead : (pre ++ (startD ++ (A ++ (endD ++ post)))).take pre.length = pre :=
    List.take_left' rfl
  have hrm : removeMatches (pre ++ (startD ++ (A ++ (endD ++ post)))) = pre ++ post := by
    unfold removeMatches
    rw [removeMatchesFuel_succ_some hfm, hhead, htail,
      removeMatchesFuel_none (findMatch_none_of_no_start post hpost)]
  rw [extract_prd_eq_of_some hfm, hrm, hgrp, List.take_left]

/-- **C1.**  For all strings `A`, `pre`, `post` containing neither literal
marker, `extract_prd (startD ++ A ++ endD) = (some (trim A), "")` and
`extract_prd (pre ++ startD ++ A ++ endD ++ post) = (some (trim A),
trim (pre ++ post))`: the document block is the trimmed text strictly
between the first non-greedy marker pair and the commentary is the input
with the marker span removed, then trimmed. -/
theorem extract_prd_delimits (pre A post : List Char)
    (hpre : ¬ startD <:+: pre ∧ ¬ endD <:+: pre)
    (hA : ¬ startD <:+: A ∧ ¬ endD <:+: A)
    (hpost : ¬ startD <:+: post ∧ ¬ endD <:+: post) :
    extract_prd (startD ++ (A ++ endD)) = (some (strip A), []) ∧
    extract_prd (pre ++ (startD ++ (A ++ (endD ++ post)))) =
      (some (strip A), strip (pre ++ post)) := by
  constructor
  · have h := extract_prd_split_eq [] A [] (by decide) hA.2 (by decide)
    simpa using h
  · exact extract_prd_split_eq pre A post hpre.1 hA.2 hpost.1

/-- Witness for C1 at a concrete conversation snippet. -/
theorem extract_prd_delimits_witness :
    extract_prd (startD ++ ((" # T\nbody ").data ++ endD)) =
      (some (("# T\nbody").data), []) ∧
    extract_prd ((("Here: ").data ++ (startD ++ ((" # T\nbody ").data ++
        (endD ++ ("done").data)))) : List Char) =
      (some (("# T\nbody").data), ("Here: done").data) := by
  have h := extract_prd_delimits (("Here: ").data) ((" # T\nbody ").data) (("done").data)
    (by constructor <;> decide) (by constructor <;> decide) (by constructor <;> decide)
  constructor
  · rw [h.1]
    decide
  · rw [h.2]
    decide

/-- A successful `firstOcc` yields a decomposition of the text. -/
theorem firstOcc_split (pat : List Char) :
    ∀ (s : List Char) (k : Nat), firstOcc pat s = some k →
      ∃ u w, s = u ++ (pat ++ w) ∧ u.length = k := by
  intro s
  induction s with
  | nil =>
    intro k hk
    cases hp : pat.isPrefixOf ([] : List Char) with
    | true =>
      have hpn : pat = [] := List.prefix_nil.mp (( List.isPrefixOf_iff_prefix).mp hp)
      refine ⟨[], [], by simp [hpn], ?_⟩
      simp only [firstOcc, hp, if_true] at hk
      simpa using Option.some_inj.mp hk
    | false =>
      simp only [firstOcc, hp] at hk
      simp at hk
  | cons c t ih =>
    intro k hk
    cases hp : pat.isPrefixOf (c :: t) with
    | true =>
      rw [firstOcc_cons_pos hp (by simp)] at hk
      obtain ⟨w, hw⟩ := ( List.isPrefixOf_iff_prefix).mp hp
      refine ⟨[], w, by simp [← hw], ?_⟩
      simpa using Option.some_inj.mp hk
    | false =>
      rw [firstOcc_cons_neg c t hp] at hk
      cases hfo : firstOcc pat t with
      | none => rw [hfo] at hk; simp at hk
      | some k' =>
        rw [hfo] at hk
        simp only [Option.map_some', Option.some_inj] at hk
        obtain ⟨u, w, hsw, hlen⟩ := ih k' hfo
        refine ⟨c :: u, w, by simp [hsw], ?_⟩
        simp [hlen, hk]

/-- A successful `findMatch` yields the marker-pair decomposition. -/
theorem findMatch_split :
    ∀ (s : List Char) (i k : Nat), findMatch s = some (i, k) →
      ∃ u v w, s = u ++ (startD ++ (v ++ (endD ++ w))) ∧ u.length = i ∧ v.length = k := by
  intro s
  induction s with
  | nil => intro i k h; simp [findMatch] at h
  | cons c t ih =>
    intro i k h
    cases hp : startD.isPrefixOf (c :: t) with
    | true =>
      cases hfo : firstOcc endD ((c :: t).drop startD.length) with
      | some k' =>
        rw [findMatch_cons_pos hp hfo] at h
        simp only [Option.some_inj, Prod.mk.injEq] at h
        obtain ⟨hi, hk2⟩ := h
        obtain ⟨t', ht'⟩ := ( List.isPrefixOf_iff_prefix).mp hp
        have hdrop : (c :: t).drop startD.length = t' := by
          rw [← ht', List.drop_left]
        rw [hdrop] at hfo
        obtain ⟨v, w, hvw, hlen⟩ := firstOcc_split endD t' k' hfo
        refine ⟨[], v, w, ?_, ?_, ?_⟩
        · rw [List.nil_append, ← ht', hvw]
        · simp [← hi]
        · rw [hlen, hk2]
      | none =>
        have hstep : findMatch (c :: t) = (findMatch t).map (fun p => (p.1 + 1, p.2)) := by
          simp [findMatch, hp, hfo]
        rw [hstep] at h
        cases hfm : findMatch t with
        | none => rw [hfm] at h; simp at h
        | some p =>
          rw [hfm] at h
          simp only [Option.map_some', Option.some_inj, Prod.mk.injEq] at h
          obtain ⟨hi, hk2⟩ := h
          obtain ⟨u, v, w, hsw, hui, hvk⟩ := ih p.1 p.2 hfm
          refine ⟨c :: u, v, w, by simp [hsw], ?_, ?_⟩
          · simp [hui, ← hi]
          · rw [hvk, hk2]
    | false =>
      rw [findMatch_cons_neg hp] at h
      cases hfm : findMatch t with
      | none => rw [hfm] at h; simp at h
      | some p =>
        rw [hfm] at h
        simp only [Option.map_some', Option.some_inj, Prod.mk.injEq] at h
        obtain ⟨hi, hk2⟩ := h
        obtain ⟨u, v, w, hsw, hui, hvk⟩ := ih p.1 p.2 hfm
        refine ⟨c :: u, v, w, by simp [hsw], ?_, ?_⟩
        · simp [hui, ← hi]
        · rw [hvk, hk2]

/-- The pattern always matches on text that contains a planted occurrence. -/
theorem firstOcc_planted_ne_none (pat b : List Char) (hpne : pat ≠ []) :
    ∀ a : List Char, firstOcc pat (a ++ (pat ++ b)) ≠ none := by
  intro a
  induction a with
  | nil =>
    rw [List.nil_append, firstOcc_cons_pos
      (by rw [ List.isPrefixOf_iff_prefix]; exact List.prefix_append pat b) (by simp [hpne])]
    simp
  | cons c a' ih =>
    rw [List.cons_append]
    cases hp : pat.isPrefixOf (c :: (a' ++ (pat ++ b))) with
    | true =>
      rw [firstOcc_cons_pos hp (by simp)]
      simp
    | false =>
      rw [firstOcc_cons_neg c _ hp]
      simpa using ih

/-- `findMatch` succeeds on any text containing a planted marker pair. -/
theorem findMatch_planted_ne_none (v w : List Char) :
    ∀ u : List Char, findMatch (u ++ (startD ++ (v ++ (endD ++ w)))) ≠ none := by
  intro u
  induction u with
  | nil =>
    rw [List.nil_append]
    cases hfo : firstOcc endD ((startD ++ (v ++ (endD ++ w))).drop startD.length) with
    | none =>
      exfalso
      rw [List.drop_left] at hfo
      exact firstOcc_planted_ne_none endD w (by decide) v hfo
    | some k =>
      rw [findMatch_cons_pos
        (by rw [ List.isPrefixOf_iff_prefix]; exact List.prefix_append _ _) hfo]
      simp
  | cons c u' ih =>
    rw [List.cons_append]
    cases hp : startD.isPrefixOf (c :: (u' ++ (startD ++ (v ++ (endD ++ w))))) with
    | false =>
      rw [findMatch_cons_neg hp]
      simpa using ih
    | true =>
      cases hfo : firstOcc endD ((c :: (u' ++ (startD ++ (v ++ (endD ++ w))))).drop
          startD.length) with
      | some k =>
        rw [findMatch_cons_pos hp hfo]
        simp
      | none =>
        exfalso
        have hsplit : (c :: (u' ++ (startD ++ (v ++ (endD ++ w))))).drop startD.length =
            ((c :: (u' ++ (startD ++ v))).drop startD.length) ++ (endD ++ w) := by
          rw [show c :: (u' ++ (startD ++ (v ++ (endD ++ w)))) =
              (c :: (u' ++ (startD ++ v))) ++ (endD ++ w) from by simp]
          refine List.drop_append_of_le_length ?_
          simp
          omega
        rw [hsplit] at hfo
        exact firstOcc_planted_ne_none endD w (by decide) _ hfo

/-- **C5.**  For every text `T` that does not contain the start/end marker
pair (a start marker followed, anywhere later, by an end marker),
`extract_prd T` returns `(none, T)`: the commentary is `T` itself,
unchanged and untrimmed, and absence of a document block is a normal
outcome, not an error. -/
theorem extract_prd_no_pair (T : List Char)
    (h : ¬ ∃ u v w, T = u ++ (startD ++ (v ++ (endD ++ w)))) :
    extract_prd T = (none, T) := by
  have hfm : findMatch T = none := by
    cases hx : findMatch T with
    | none => rfl
    | some p =>
      obtain ⟨u, v, w, hsw, _, _⟩ := findMatch_split T p.1 p.2 (by rw [hx])
      exact absurd ⟨u, v, w, hsw⟩ h
  simp [extract_prd, hfm]

/-- Witness for C5 on a discovery-question turn without any marker. -/
theorem extract_prd_no_pair_witness :
    extract_prd (("What is the core user problem?").data) =
      (none, ("What is the core user problem?").data) := by
  refine extract_prd_no_pair _ ?_
  rintro ⟨u, v, w, hsw⟩
  have hnone : findMatch (("What is the core user problem?").data) = none := by decide
  rw [hsw] at hnone
  exact findMatch_planted_ne_none v w u hnone

/-- **C6.**  The download filename is computed by stripping every character
outside `[A-Za-z0-9_\- ]`, then truncating to 40 characters, then
substituting spaces with underscores, then wrapping in `PRD_….pdf`; in
particular `"Smart Search: v2!!"` yields `"PRD_Smart_Search_v2.pdf"`, and a
character kept beyond position 40 of the raw title survives because the
strip happens before the truncation. -/
theorem download_filename_spec :
    (∀ title : List Char, download_filename title =
      ("PRD_").data ++
        (((title.filter keepChar).take 40).map (fun c => if c = ' ' then '_' else c)) ++
        (".pdf").data) ∧
    download_filename (("Smart Search: v2!!").data) = ("PRD_Smart_Search_v2.pdf").data ∧
    download_filename (("aaaaaaaaaaaaaaaaaaaaaaaaaaaaaaaaaaaaaa!!!XY").data) =
      ("PRD_aaaaaaaaaaaaaaaaaaaaaaaaaaaaaaaaaaaaaaXY.pdf").data := by
  refine ⟨fun title => rfl, by decide, by decide⟩

/-- **C3.**  The payload with lines `- a`, `- b`, `1. c`, `1. d` renders to
exactly one unordered grouping holding the two items `a`, `b` followed by
exactly one ordered grouping holding the two items `c`, `d`: switching the
list type closes the open list and opens the other one. -/
theorem prd_to_html_two_groupings :
    prd_to_html (("- a\n- b\n1. c\n1. d").data) =
      ("<ul>\n<li>a</li>\n<li>b</li>\n</ul>\n<ol>\n<li>c</li>\n<li>d</li>\n</ol>").data := by
  decide

/-! ### Line-dispatch lemmas -/

theorem takeWhile_planted {p : Char → Bool} {ds : List Char} {x : Char} {r : List Char}
    (hds : ∀ c ∈ ds, p c = true) (hx : p x = false) :
    (ds ++ x :: r).takeWhile p = ds ∧ (ds ++ x :: r).dropWhile p = x :: r := by
  induction ds with
  | nil => simp [List.takeWhile_cons, List.dropWhile_cons, hx]
  | cons d ds' ih =>
    have hd : p d = true := hds d (by simp)
    have ih2 := ih (fun c hc => hds c (by simp [hc]))
    simp [List.takeWhile_cons, List.dropWhile_cons, hd, ih2.1, ih2.2]

theorem isDigit_ne {d x : Char} (h : isDigit d = true) (hx : isDigit x = false) : d ≠ x := by
  intro he
  rw [he] at h
  rw [h] at hx
  exact Bool.noConfusion hx

theorem isDigit_not_space {d : Char} (h : isDigit d = true) : isSpace d = false := by
  cases hs : isSpace d with
  | false => rfl
  | true =>
    exfalso
    simp only [isSpace, decide_eq_true_eq] at hs
    rcases hs with rfl | rfl | rfl | rfl | rfl | rfl <;> exact absurd h (by decide)

theorem cons_take_ne {d c : Char} {t m : List Char} {n : Nat} (h : d ≠ c) :
    (d :: t).take (n + 1) ≠ c :: m := by
  rw [List.take_succ_cons]
  intro he
  injection he with h1 _
  exact h h1

/-- **C2 counterexample.**  The markup backend does not carry the literal
label `7` into the emitted item: `prd_to_html "7. x"` contains no `7` at
all, the number is stripped and the bare `<li>x</li>` is renumbered by the
`<ol>` container. -/
theorem prd_to_html_drops_ordinal :
    prd_to_html (("7. x").data) = ("<ol>\n<li>x</li>\n</ol>").data ∧
    '7' ∉ prd_to_html (("7. x").data) := by
  exact ⟨by decide, by decide⟩

/-- **C2 (amended).**  Both backends dispatch a `digits-dot-space` line as an
ordered item with the inline formatter applied to the remainder after the
`N. ` prefix; the paginated backend preserves the leading number as a
literal bold label, while the markup backend strips the number from the
`<li>` text (the enclosing `<ol>` renumbers it). -/
theorem ordered_item_rendering (ds rest : List Char) (st : Bool × Bool)
    (hne : ds ≠ []) (hds : ∀ c ∈ ds, isDigit c = true) :
    pdfLine (ds ++ ('.' :: ' ' :: rest)) =
      [Flowable.par PStyle.bullet
        (("<b>").data ++ ds ++ (".</b> &nbsp;").data ++ il rest)] ∧
    renderLine st (ds ++ ('.' :: ' ' :: rest)) =
      ((if st.1 then [("</ul>").data] else []) ++ (if st.2 then [] else [("<ol>").data]) ++
        [("<li>").data ++ md_inline rest ++ ("</li>").data], (false, true)) := by
  obtain ⟨d, ds', rfl⟩ : ∃ d ds', ds = d :: ds' := by
    cases ds with
    | nil => exact absurd rfl hne
    | cons d ds' => exact ⟨d, ds', rfl⟩
  have hd : isDigit d = true := hds d (by simp)
  have htw := (takeWhile_planted (x := '.') (r := ' ' :: rest) hds (by decide)).1
  have hdrop1 : ((d :: ds') ++ ('.' :: ' ' :: rest)).drop (d :: ds').length =
      '.' :: ' ' :: rest := List.drop_left _ _
  have hord : isOrderedLine ((d :: ds') ++ ('.' :: ' ' :: rest)) = true := by
    unfold isOrderedLine
    rw [htw, hdrop1]
    simp
  have hdrop2 : ((d :: ds') ++ ('.' :: ' ' :: rest)).drop ((d :: ds').length + 2) = rest := by
    rw [show (d :: ds') ++ ('.' :: ' ' :: rest) = ((d :: ds') ++ ['.', ' ']) ++ rest from by simp]
    exact List.drop_left' (by simp)
  have h1 : ¬ (((d :: ds') ++ ('.' :: ' ' :: rest)).take 2 = ("# ").data) := by
    rw [List.cons_append, show (("# ").data : List Char) = '#' :: [' '] from rfl]
    exact cons_take_ne (isDigit_ne hd (by decide))
  have h2 : ¬ (((d :: ds') ++ ('.' :: ' ' :: rest)).take 3 = ("## ").data) := by
    rw [List.cons_append, show (("## ").data : List Char) = '#' :: ['#', ' '] from rfl]
    exact cons_take_ne (isDigit_ne hd (by decide))
  have h3 : ¬ (((d :: ds') ++ ('.' :: ' ' :: rest)).take 4 = ("### ").data) := by
    rw [List.cons_append, show (("### ").data : List Char) = '#' :: ['#', '#', ' '] from rfl]
    exact cons_take_ne (isDigit_ne hd (by decide))
  have h4 : ¬ (((d :: ds') ++ ('.' :: ' ' :: rest)).take 2 = ("- ").data ∨
      ((d :: ds') ++ ('.' :: ' ' :: rest)).take 2 = ("* ").data) := by
    rintro (hx | hx)
    · rw [List.cons_append, show (("- ").data : List Char) = '-' :: [' '] from rfl] at hx
      exact cons_take_ne (isDigit_ne hd (by decide)) hx
    · rw [List.cons_append, show (("* ").data : List Char) = '*' :: [' '] from rfl] at hx
      exact cons_take_ne (isDigit_ne hd (by decide)) hx
  constructor
  · unfold pdfLine
    rw [if_neg h1, if_neg h2, if_neg h3, if_neg h4, if_pos hord, htw, hdrop2]
  · unfold renderLine
    rw [if_neg h1, if_neg h2, if_neg h3, if_neg h4, if_pos hord, htw, hdrop2]

/-- Witness for C2 (amended) at the spec's example line `7. x` with an open
unordered list. -/
theorem ordered_item_rendering_witness :
    pdfLine (("7").data ++ ('.' :: ' ' :: ("x").data)) =
      [Flowable.par PStyle.bullet
        (("<b>").data ++ ("7").data ++ (".</b> &nbsp;").data ++ il (("x").data))] ∧
    renderLine (true, false) (("7").data ++ ('.' :: ' ' :: ("x").data)) =
      ([("</ul>").data, ("<ol>").data,
        ("<li>").data ++ md_inline (("x").data) ++ ("</li>").data], (false, true)) := by
  have h := ordered_item_rendering (("7").data) (("x").data) (true, false)
    (by decide) (by decide)
  exact ⟨h.1, by rw [h.2]; decide⟩

/-! ### Inline-formatter lemmas -/

/-- A substitution whose opening delimiter starts with a character absent
from the text is the identity. -/
theorem substEmphFuel_id {o : Char} {os cls ro rc : List Char} :
    ∀ (f : Nat) (s : List Char), o ∉ s →
      substEmphFuel (o :: os) cls ro rc f s = s := by
  intro f
  induction f with
  | zero => intro s _; rfl
  | succ f ih =>
    intro s hs
    cases s with
    | nil => rfl
    | cons c t =>
      have hpre : (o :: os).isPrefixOf (c :: t) = false := by
        cases hp : (o :: os).isPrefixOf (c :: t) with
        | false => rfl
        | true =>
          exfalso
          obtain ⟨w, hw⟩ := ( List.isPrefixOf_iff_prefix).mp hp
          injection hw with h1 _
          exact hs (by rw [h1]; exact List.mem_cons_self c t)
      have hstep : substEmphFuel (o :: os) cls ro rc (f + 1) (c :: t) =
          c :: substEmphFuel (o :: os) cls ro rc f t := by
        simp [substEmphFuel, hpre]
      rw [hstep, ih t (fun hx => hs (List.mem_cons_of_mem c hx))]

/-- The non-greedy capture on a planted closing delimiter: when the capture
text contains neither the delimiter's first character nor a newline, the
capture is exactly that text. -/
theorem findCapture_planted {e : Char} {es : List Char} :
    ∀ (a v : List Char), a ≠ [] → e ∉ a → '\n' ∉ a →
      findCapture (e :: es) (a ++ ((e :: es) ++ v)) = some a := by
  intro a
  induction a with
  | nil => intro v h _ _; exact absurd rfl h
  | cons c a' ih =>
    intro v _ he hn
    have hcnl : (c == '\n') = false := by
      simp only [beq_eq_false_iff_ne, ne_eq]
      rintro rfl
      exact hn (List.mem_cons_self _ _)
    cases a' with
    | nil =>
      have hpre : (e :: es).isPrefixOf ((e :: es) ++ v) = true := by
        rw [ List.isPrefixOf_iff_prefix]
        exact List.prefix_append _ _
      rw [List.cons_append, List.nil_append]
      simp [findCapture, hcnl, hpre]
    | cons c2 a'' =>
      have hpre : (e :: es).isPrefixOf ((c2 :: a'') ++ ((e :: es) ++ v)) = false := by
        cases hp : (e :: es).isPrefixOf ((c2 :: a'') ++ ((e :: es) ++ v)) with
        | false => rfl
        | true =>
          exfalso
          obtain ⟨w, hw⟩ := ( List.isPrefixOf_iff_prefix).mp hp
          rw [List.cons_append] at hw
          injection hw with h1 _
          exact he (by rw [h1]; exact List.mem_cons_of_mem c (List.mem_cons_self c2 a''))
      have hrec := ih v (by simp) (fun hx => he (List.mem_cons_of_mem c hx))
        (fun hx => hn (List.mem_cons_of_mem c hx))
      rw [List.cons_append, findCapture, if_neg (by rw [hcnl]; simp),
        if_neg (by rw [hpre]; simp), hrec]
      simp

/-- Scanning over a stretch that cannot start a match emits it verbatim. -/
theorem substEmphFuel_scan {o : Char} {os cls ro rc : List Char} :
    ∀ (u : List Char) (f : Nat) (rest : List Char), o ∉ u →
      substEmphFuel (o :: os) cls ro rc (f + u.length) (u ++ rest) =
        u ++ substEmphFuel (o :: os) cls ro rc f rest := by
  intro u
  induction u with
  | nil => intro f rest _; simp
  | cons c u' ih =>
    intro f rest hu
    have hpre : (o :: os).isPrefixOf (c :: (u' ++ rest)) = false := by
      cases hp : (o :: os).isPrefixOf (c :: (u' ++ rest)) with
      | false => rfl
      | true =>
        exfalso
        obtain ⟨w, hw⟩ := ( List.isPrefixOf_iff_prefix).mp hp
        injection hw with h1 _
        exact hu (by rw [h1]; exact List.mem_cons_self _ _)
    have hfuel : f + (c :: u').length = (f + u'.length) + 1 := by
      simp [List.length_cons]
      omega
    rw [List.cons_append, hfuel]
    have hstep : substEmphFuel (o :: os) cls ro rc ((f + u'.length) + 1) (c :: (u' ++ rest)) =
        c :: substEmphFuel (o :: os) cls ro rc (f + u'.length) (u' ++ rest) := by
      simp [substEmphFuel, hpre]
    rw [hstep, ih f rest (fun hx => hu (List.mem_cons_of_mem c hx)), List.cons_append]

/-- One substitution step on a planted, well-delimited span. -/
theorem substEmphFuel_step (o : Char) (os cls ro rc : List Char) (f : Nat) (a v : List Char)
    (hcap : findCapture cls (a ++ (cls ++ v)) = some a) :
    substEmphFuel (o :: os) cls ro rc (f + 1) ((o :: os) ++ (a ++ (cls ++ v))) =
      ro ++ a ++ rc ++ substEmphFuel (o :: os) cls ro rc f v := by
  have hpre : (o :: os).isPrefixOf (o :: (os ++ (a ++ (cls ++ v)))) = true := by
    rw [ List.isPrefixOf_iff_prefix]
    exact ⟨a ++ (cls ++ v), by simp⟩
  have hdrop1 : (o :: (os ++ (a ++ (cls ++ v)))).drop (o :: os).length = a ++ (cls ++ v) := by
    rw [List.length_cons, List.drop_succ_cons, List.drop_left]
  have hdrop2 : (o :: (os ++ (a ++ (cls ++ v)))).drop
      ((o :: os).length + a.length + cls.length) = v := by
    rw [show o :: (os ++ (a ++ (cls ++ v))) = ((o :: os) ++ a ++ cls) ++ v from by simp]
    refine List.drop_left' ?_
    simp
    omega
  rw [List.cons_append]
  simp only [substEmphFuel, hpre, if_true, hdrop1, hcap, hdrop2]

/-- A full substitution pass on text holding exactly one well-delimited
emphasis span. -/
theorem substEmph_planted (o : Char) (os ro rc : List Char) (u a v : List Char)
    (hu : o ∉ u) (ha1 : o ∉ a) (ha2 : '\n' ∉ a) (hane : a ≠ []) (hv : o ∉ v) :
    substEmph (o :: os) (o :: os) ro rc (u ++ ((o :: os) ++ (a ++ ((o :: os) ++ v)))) =
      u ++ (ro ++ (a ++ (rc ++ v))) := by
  unfold substEmph
  have hlen : (u ++ ((o :: os) ++ (a ++ ((o :: os) ++ v)))).length =
      ((((o :: os).length + a.length + (o :: os).length + v.length) - 1) + 1) + u.length := by
    simp
    omega
  rw [hlen, substEmphFuel_scan u _ _ hu,
    substEmphFuel_step o os (o :: os) ro rc _ a v (findCapture_planted a v hane ha1 ha2),
    substEmphFuel_id _ v hv]
  simp [List.append_assoc]

/-- `md_inline` on a line holding one well-delimited bold span: the bold
pass consumes both `**` pairs, and the later italic and code passes leave
the produced text untouched. -/
theorem md_inline_planted (u a v : List Char)
    (hu1 : '*' ∉ u) (hu2 : '`' ∉ u) (ha1 : '*' ∉ a) (ha2 : '`' ∉ a) (ha3 : '\n' ∉ a)
    (hane : a ≠ []) (hv1 : '*' ∉ v) (hv2 : '`' ∉ v) :
    md_inline (u ++ (("**").data ++ (a ++ (("**").data ++ v)))) =
      u ++ (("<strong>").data ++ (a ++ (("</strong>").data ++ v))) := by
  unfold md_inline
  rw [show (("**").data : List Char) = '*' :: ['*'] from rfl]
  rw [substEmph_planted '*' ['*'] _ _ u a v hu1 ha1 ha3 hane hv1]
  have hstar : '*' ∉ (u ++ ((("<strong>").data) ++ (a ++ ((("</strong>").data) ++ v)))) := by
    simp only [List.mem_append]
    rintro (h | h | h | h | h)
    · exact hu1 h
    · exact absurd h (by decide)
    · exact ha1 h
    · exact absurd h (by decide)
    · exact hv1 h
  have htick : '`' ∉ (u ++ ((("<strong>").data) ++ (a ++ ((("</strong>").data) ++ v)))) := by
    simp only [List.mem_append]
    rintro (h | h | h | h | h)
    · exact hu2 h
    · exact absurd h (by decide)
    · exact ha2 h
    · exact absurd h (by decide)
    · exact hv2 h
  unfold substEmph
  rw [show (("*").data : List Char) = '*' :: [] from rfl,
    show (("`").data : List Char) = '`' :: [] from rfl,
    substEmphFuel_id _ _ hstar, substEmphFuel_id _ _ htick]

/-- The PDF-backend formatter `il` on the same shape of line. -/
theorem il_planted (u a v : List Char)
    (hu1 : '*' ∉ u) (hu2 : '`' ∉ u) (ha1 : '*' ∉ a) (ha2 : '`' ∉ a) (ha3 : '\n' ∉ a)
    (hane : a ≠ []) (hv1 : '*' ∉ v) (hv2 : '`' ∉ v) :
    il (u ++ (("**").data ++ (a ++ (("**").data ++ v)))) =
      u ++ (("<b>").data ++ (a ++ (("</b>").data ++ v))) := by
  unfold il
  rw [show (("**").data : List Char) = '*' :: ['*'] from rfl]
  rw [substEmph_planted '*' ['*'] _ _ u a v hu1 ha1 ha3 hane hv1]
  have hstar : '*' ∉ (u ++ ((("<b>").data) ++ (a ++ ((("</b>").data) ++ v)))) := by
    simp only [List.mem_append]
    rintro (h | h | h | h | h)
    · exact hu1 h
    · exact absurd h (by decide)
    · exact ha1 h
    · exact absurd h (by decide)
    · exact hv1 h
  have htick : '`' ∉ (u ++ ((("<b>").data) ++ (a ++ ((("</b>").data) ++ v)))) := by
    simp only [List.mem_append]
    rintro (h | h | h | h | h)
    · exact hu2 h
    · exact absurd h (by decide)
    · exact ha2 h
    · exact absurd h (by decide)
    · exact hv2 h
  unfold substEmph
  rw [show (("*").data : List Char) = '*' :: [] from rfl,
    show (("`").data : List Char) = '`' :: [] from rfl,
    substEmphFuel_id _ _ hstar, substEmphFuel_id _ _ htick]

/-- **C8.**  Both inline formatters apply the bold substitution before the
italic one, so a well-delimited `**text**` becomes a single bold span whose
delimiters are fully consumed and are not re-matched by the single-asterisk
italic rule; the substitutions are non-greedy and global, so `**a** and
**b**` yields two separate bold spans rather than one. -/
theorem inline_bold_first :
    (∀ u a v : List Char, '*' ∉ u → '`' ∉ u → '*' ∉ a → '`' ∉ a → '\n' ∉ a → a ≠ [] →
        '*' ∉ v → '`' ∉ v →
      md_inline (u ++ (("**").data ++ (a ++ (("**").data ++ v)))) =
          u ++ (("<strong>").data ++ (a ++ (("</strong>").data ++ v))) ∧
        il (u ++ (("**").data ++ (a ++ (("**").data ++ v)))) =
          u ++ (("<b>").data ++ (a ++ (("</b>").data ++ v)))) ∧
    md_inline (("**a** and **b**").data) =
      ("<strong>a</strong> and <strong>b</strong>").data ∧
    il (("**a** and **b**").data) = ("<b>a</b> and <b>b</b>").data := by
  refine ⟨fun u a v h1 h2 h3 h4 h5 h6 h7 h8 =>
    ⟨md_inline_planted u a v h1 h2 h3 h4 h5 h6 h7 h8,
     il_planted u a v h1 h2 h3 h4 h5 h6 h7 h8⟩, by decide, by decide⟩

/-- Witness for C8 at a concrete line. -/
theorem inline_bold_first_witness :
    md_inline ((("see ").data ++ (("**").data ++ (("bold words").data ++
        (("**").data ++ (" end.").data))))) =
      ("see ").data ++ (("<strong>").data ++ (("bold words").data ++
        (("</strong>").data ++ (" end.").data))) ∧
    il ((("see ").data ++ (("**").data ++ (("bold words").data ++
        (("**").data ++ (" end.").data))))) =
      ("see ").data ++ (("<b>").data ++ (("bold words").data ++
        (("</b>").data ++ (" end.").data))) :=
  inline_bold_first.1 (("see ").data) (("bold words").data) ((" end.").data)
    (by decide) (by decide) (by decide) (by decide) (by decide) (by decide)
    (by decide) (by decide)

/-- **C10.**  Neither `prd_to_html` nor `md_inline` performs any HTML
escaping: outside the recognized line prefixes and emphasis markers every
character is emitted verbatim, so a payload line such as `<script>` is
embedded unescaped in the output nodes. -/
theorem no_markup_escaping :
    (∀ s : List Char, '*' ∉ s → '`' ∉ s → md_inline s = s) ∧
    prd_to_html (("<script>").data) = ("<p><script></p>").data ∧
    md_inline (("a < b & c > d").data) = ("a < b & c > d").data := by
  refine ⟨?_, by decide, by decide⟩
  intro s h1 h2
  unfold md_inline substEmph
  rw [show (("**").data : List Char) = '*' :: ['*'] from rfl,
    show (("*").data : List Char) = '*' :: [] from rfl,
    show (("`").data : List Char) = '`' :: [] from rfl,
    substEmphFuel_id _ _ h1, substEmphFuel_id _ _ h1, substEmphFuel_id _ _ h2]

/-- Witness for C10's universal part on a payload with raw HTML characters. -/
theorem no_markup_escaping_witness :
    md_inline (("<script>alert(1)</script>").data) = ("<script>alert(1)</script>").data :=
  no_markup_escaping.1 (("<script>alert(1)</script>").data) (by decide) (by decide)

/-- **C9.**  The `prd_to_html` state machine keeps `<ul>`/`<ol>` groupings
exactly aligned with maximal runs of same-type list lines: every non-list
line closes any open list (emitting the close tags first) and resets the
state, end of input closes any open list, an unordered item closes an open
ordered list and opens `<ul>` only when none is open, and an ordered item
does the symmetric thing. -/
theorem html_list_grouping_invariant :
    (∀ (st : Bool × Bool) (l : List Char),
        ¬ (l.take 2 = ("- ").data ∨ l.take 2 = ("* ").data) → isOrderedLine l = false →
        (renderLine st l).2 = (false, false) ∧
        ∃ node, (renderLine st l).1 = closeTags st ++ [node]) ∧
    (∀ st : Bool × Bool, htmlLines st [] = closeTags st) ∧
    (∀ (st : Bool × Bool) (rest : List Char),
        renderLine st ('-' :: ' ' :: rest) =
          ((if st.2 then [("</ol>").data] else []) ++
            (if st.1 then [] else [("<ul>").data]) ++
            [("<li>").data ++ md_inline rest ++ ("</li>").data], (true, false))) ∧
    (∀ (st : Bool × Bool) (l : List Char), isOrderedLine l = true →
        renderLine st l =
          ((if st.1 then [("</ul>").data] else []) ++
            (if st.2 then [] else [("<ol>").data]) ++
            [("<li>").data ++ md_inline (l.drop ((l.takeWhile isDigit).length + 2)) ++
              ("</li>").data], (false, true))) := by
  refine ⟨?_, fun st => rfl, ?_, ?_⟩
  · intro st l hList hOrd
    have hOrd2 : ¬ (isOrderedLine l = true) := by
      rw [hOrd]
      simp
    unfold renderLine
    rw [if_neg hList, if_neg hOrd2]
    split_ifs
    · exact ⟨rfl, _, rfl⟩
    · exact ⟨rfl, _, rfl⟩
    · exact ⟨rfl, _, rfl⟩
    · exact ⟨rfl, _, rfl⟩
    · exact ⟨rfl, _, rfl⟩
    · exact ⟨rfl, _, rfl⟩
  · intro st rest
    have hcond : ('-' :: ' ' :: rest).take 2 = ("- ").data ∨
        ('-' :: ' ' :: rest).take 2 = ("* ").data := Or.inl rfl
    unfold renderLine
    rw [if_neg (by intro h; injection h with h1 _; exact absurd h1 (by decide)),
      if_neg (by intro h; injection h with h1 _; exact absurd h1 (by decide)),
      if_neg (by intro h; injection h with h1 _; exact absurd h1 (by decide)),
      if_pos hcond]
    rfl
  · intro st l hord
    have hne : l.takeWhile isDigit ≠ [] := by
      intro hx
      unfold isOrderedLine at hord
      rw [hx] at hord
      simp at hord
    obtain ⟨c, t, rfl⟩ : ∃ c t, l = c :: t := by
      cases l with
      | nil => simp [List.takeWhile] at hne
      | cons c t => exact ⟨c, t, rfl⟩
    have hcd : isDigit c = true := by
      cases hc : isDigit c with
      | true => rfl
      | false => simp [List.takeWhile_cons, hc] at hne
    have h1 : ¬ ((c :: t).take 2 = ("# ").data) := by
      rw [show (("# ").data : List Char) = '#' :: [' '] from rfl]
      exact cons_take_ne (isDigit_ne hcd (by decide))
    have h2 : ¬ ((c :: t).take 3 = ("## ").data) := by
      rw [show (("## ").data : List Char) = '#' :: ['#', ' '] from rfl]
      exact cons_take_ne (isDigit_ne hcd (by decide))
    have h3 : ¬ ((c :: t).take 4 = ("### ").data) := by
      rw [show (("### ").data : List Char) = '#' :: ['#', '#', ' '] from rfl]
      exact cons_take_ne (isDigit_ne hcd (by decide))
    have h4 : ¬ ((c :: t).take 2 = ("- ").data ∨ (c :: t).take 2 = ("* ").data) := by
      rintro (hx | hx)
      · rw [show (("- ").data : List Char) = '-' :: [' '] from rfl] at hx
        exact cons_take_ne (isDigit_ne hcd (by decide)) hx
      · rw [show (("* ").data : List Char) = '*' :: [' '] from rfl] at hx
        exact cons_take_ne (isDigit_ne hcd (by decide)) hx
    unfold renderLine
    rw [if_neg h1, if_neg h2, if_neg h3, if_neg h4, if_pos hord]

/-- Witness for C9: a paragraph line with an open unordered list, and an
ordered item arriving while an ordered list is already open. -/
theorem html_list_grouping_invariant_witness :
    ((renderLine (true, false) (("hello").data)).2 = (false, false) ∧
      ∃ node, (renderLine (true, false) (("hello").data)).1 =
        closeTags (true, false) ++ [node]) ∧
    renderLine (false, true) (("12. go").data) = ([("<li>go</li>").data], (false, true)) := by
  refine ⟨html_list_grouping_invariant.1 (true, false) (("hello").data)
    (by decide) (by decide), ?_⟩
  rw [html_list_grouping_invariant.2.2.2 (false, true) (("12. go").data) (by decide)]
  decide

set_option maxRecDepth 8192 in
/-- **C7 counterexample.**  The handler runs `extract_prd` on the synthetic
failure text too, and the exception description is interpolated into it
verbatim; an exception message that itself carries a marker pair therefore
produces a Document Record even though the generator raised: the claim's
"zero Document Records" is violated. -/
theorem handleTurn_err_record :
    ((handleTurn [] [] (("hi").data)
        (StreamResult.err [] (("<PRD_START># Boom<PRD_END>").data))
        (("llama3.1:8b").data) (("12 Oct 2025").data) (("12 Oct, 10:00").data)).2).length
      = 1 := by
  decide

/-- **C7 (amended).**  When the streaming generator raises, the session
appends exactly one assistant-role message holding the synthetic failure
text (any partially streamed content is discarded), and no Document Record
is appended provided the failure text — which interpolates the exception's
message — does not itself contain the marker pair. -/
theorem handleTurn_err_spec (msgs : List Msg) (prds : List DocRec)
    (input streamed emsg model today ts : List Char)
    (h : ¬ ∃ u v w, errorText model emsg = u ++ (startD ++ (v ++ (endD ++ w)))) :
    handleTurn msgs prds input (StreamResult.err streamed emsg) model today ts =
      ((msgs ++ [⟨Role.user, input⟩]) ++ [⟨Role.assistant, errorText model emsg⟩], prds) := by
  have hfm : findMatch (errorText model emsg) = none := by
    cases hx : findMatch (errorText model emsg) with
    | none => rfl
    | some p =>
      obtain ⟨u, v, w, hsw, _, _⟩ := findMatch_split _ p.1 p.2 (by rw [hx])
      exact absurd ⟨u, v, w, hsw⟩ h
  unfold handleTurn
  simp [extract_prd, hfm]

set_option maxRecDepth 8192 in
/-- Witness for C7 (amended) at a concrete failed turn. -/
theorem handleTurn_err_spec_witness :
    handleTurn [] [] (("hi").data)
        (StreamResult.err (("partly streamed…").data) (("connection refused").data))
        (("llama3.1:8b").data) (("12 Oct 2025").data) (("12 Oct, 10:00").data) =
      ([⟨Role.user, ("hi").data⟩,
        ⟨Role.assistant, errorText (("llama3.1:8b").data) (("connection refused").data)⟩],
       []) := by
  have h := handleTurn_err_spec [] [] (("hi").data) (("partly streamed…").data)
    (("connection refused").data) (("llama3.1:8b").data) (("12 Oct 2025").data)
    (("12 Oct, 10:00").data) ?_
  · rw [h]
    rfl
  · rintro ⟨u, v, w, hsw⟩
    have hnone : findMatch (errorText (("llama3.1:8b").data) (("connection refused").data)) =
        none := by decide
    rw [hsw] at hnone
    exact findMatch_planted_ne_none v w u hnone

/-! ### Title-resolver lemmas -/

theorem takeWhile_all {p : Char → Bool} : ∀ {l : List Char}, (∀ c ∈ l, p c = true) →
    l.takeWhile p = l := by
  intro l
  induction l with
  | nil => intro _; rfl
  | cons c t ih =>
    intro h
    rw [List.takeWhile_cons, h c (by simp), ih (fun x hx => h x (by simp [hx]))]
    simp

theorem findTitleAux_no_nl : ∀ (s : List Char), '\n' ∉ s → findTitleAux false s = none := by
  intro s
  induction s with
  | nil => intro _; rfl
  | cons c t ih =>
    intro h
    have hc : (c == '\n') = false := by
      simp only [beq_eq_false_iff_ne, ne_eq]
      rintro rfl
      exact h (List.mem_cons_self _ _)
    have hstep : findTitleAux false (c :: t) = findTitleAux (c == '\n') t := by
      simp [findTitleAux]
    rw [hstep, hc, ih (fun hx => h (List.mem_cons_of_mem c hx))]

theorem matchTitleAt_not_hash {c : Char} (h : ¬ c = '#') (rest : List Char) :
    matchTitleAt (c :: rest) = none := by
  simp [matchTitleAt, h]

theorem matchTitleAt_hash_nonspace {c2 : Char} (h : isSpace c2 = false) (rest : List Char) :
    matchTitleAt ('#' :: c2 :: rest) = none := by
  simp [matchTitleAt, wsRun, List.takeWhile_cons, h]

theorem findTitleAux_false_append : ∀ (l : List Char), '\n' ∉ l →
    ∀ rest, findTitleAux false (l ++ '\n' :: rest) = findTitleAux true rest := by
  intro l
  induction l with
  | nil =>
    intro _ rest
    simp [findTitleAux]
  | cons c l' ih =>
    intro h rest
    have hc : (c == '\n') = false := by
      simp only [beq_eq_false_iff_ne, ne_eq]
      rintro rfl
      exact h (List.mem_cons_self _ _)
    have hstep : findTitleAux false (c :: (l' ++ '\n' :: rest)) =
        findTitleAux (c == '\n') (l' ++ '\n' :: rest) := by
      simp [findTitleAux]
    rw [List.cons_append, hstep, hc, ih (fun hx => h (List.mem_cons_of_mem c hx))]

theorem findTitleAux_skip_line (l : List Char) (hnl : '\n' ∉ l)
    (hok : lineNoTitleStart l = true) (rest : List Char) :
    findTitleAux true (l ++ '\n' :: rest) = findTitleAux true rest := by
  cases l with
  | nil => simp [findTitleAux, matchTitleAt]
  | cons c l' =>
    have hmt : matchTitleAt (c :: (l' ++ '\n' :: rest)) = none := by
      by_cases hc : c = '#'
      · subst hc
        cases l' with
        | nil => simp [lineNoTitleStart] at hok
        | cons c2 t =>
          have hns : isSpace c2 = false := by
            simp only [lineNoTitleStart, Bool.not_eq_true'] at hok
            exact hok
          rw [List.cons_append]
          exact matchTitleAt_hash_nonspace hns _
      · exact matchTitleAt_not_hash hc _
    have hc2 : (c == '\n') = false := by
      simp only [beq_eq_false_iff_ne, ne_eq]
      rintro rfl
      exact hnl (List.mem_cons_self _ _)
    have hstep : findTitleAux true (c :: (l' ++ '\n' :: rest)) =
        findTitleAux (c == '\n') (l' ++ '\n' :: rest) := by
      simp [findTitleAux, hmt]
    rw [List.cons_append, hstep, hc2,
      findTitleAux_false_append l' (fun hx => hnl (List.mem_cons_of_mem c hx)) rest]

theorem findTitleAux_last_line (l : List Char) (hnl : '\n' ∉ l)
    (hok : lineNoTitleStart l = true) : findTitleAux true l = none := by
  cases l with
  | nil => rfl
  | cons c l' =>
    have hmt : matchTitleAt (c :: l') = none := by
      by_cases hc : c = '#'
      · subst hc
        cases l' with
        | nil => decide
        | cons c2 t =>
          have hns : isSpace c2 = false := by
            simp only [lineNoTitleStart, Bool.not_eq_true'] at hok
            exact hok
          exact matchTitleAt_hash_nonspace hns _
      · exact matchTitleAt_not_hash hc _
    have hc2 : (c == '\n') = false := by
      simp only [beq_eq_false_iff_ne, ne_eq]
      rintro rfl
      exact hnl (List.mem_cons_self _ _)
    have hstep : findTitleAux true (c :: l') = findTitleAux (c == '\n') l' := by
      simp [findTitleAux, hmt]
    rw [hstep, hc2, findTitleAux_no_nl l' (fun hx => hnl (List.mem_cons_of_mem c hx))]

theorem split_first_nl : ∀ (u : List Char), '\n' ∈ u →
    ∃ a b, u = a ++ '\n' :: b ∧ '\n' ∉ a := by
  intro u
  induction u with
  | nil => intro h; simp at h
  | cons c t ih =>
    intro h
    by_cases hc : c = '\n'
    · subst hc
      exact ⟨[], t, rfl, by simp⟩
    · have ht : '\n' ∈ t := by
        rcases List.mem_cons.mp h with h1 | h1
        · exact absurd h1.symm hc
        · exact h1
      obtain ⟨a, b, rfl, hna⟩ := ih ht
      refine ⟨c :: a, b, by simp, ?_⟩
      intro hx
      rcases List.mem_cons.mp hx with h1 | h1
      · exact hc h1.symm
      · exact hna h1

theorem splitLines_cons_ne {c : Char} (s : List Char) (h : ¬ c = '\n') :
    splitLines (c :: s) = (splitLines s).modifyHead (c :: ·) := by
  conv_lhs => unfold splitLines
  simp [h]

theorem splitLines_append : ∀ (a : List Char), '\n' ∉ a → ∀ b,
    splitLines (a ++ '\n' :: b) = a :: splitLines b := by
  intro a
  induction a with
  | nil =>
    intro _ b
    simp [splitLines]
  | cons c a' ih =>
    intro h b
    have hc : ¬ c = '\n' := fun hx => h (by rw [hx]; exact List.mem_cons_self _ _)
    rw [List.cons_append, splitLines_cons_ne _ hc,
      ih (fun hx => h (List.mem_cons_of_mem c hx)) b]
    rfl

/-- Scanning past a prefix made of lines that cannot start a title match. -/
theorem findTitleAux_skip_clean : ∀ (n : Nat) (u : List Char), u.length ≤ n →
    (u = [] ∨ u.getLast? = some '\n') →
    (∀ l ∈ splitLines u, lineNoTitleStart l = true) →
    ∀ rest, findTitleAux true (u ++ rest) = findTitleAux true rest := by
  intro n
  induction n with
  | zero =>
    intro u hlen _ _ rest
    have hu : u = [] := List.eq_nil_of_length_eq_zero (Nat.le_zero.mp hlen)
    subst hu
    rw [List.nil_append]
  | succ n ih =>
    intro u hlen hlast hlines rest
    rcases hlast with rfl | hlast
    · rw [List.nil_append]
    · have hmem : '\n' ∈ u := List.mem_of_getLast?_eq_some hlast
      obtain ⟨a, b, rfl, hna⟩ := split_first_nl u hmem
      have hla : lineNoTitleStart a = true := by
        refine hlines a ?_
        rw [splitLines_append a hna b]
        exact List.mem_cons_self _ _
      cases b with
      | nil =>
        rw [List.append_assoc, List.cons_append, List.nil_append,
          findTitleAux_skip_line a hna hla rest]
      | cons b0 b' =>
        have hlast_b : (b0 :: b').getLast? = some '\n' := by
          rw [List.getLast?_append] at hlast
          rw [List.getLast?_cons_cons] at hlast
          cases hx : (b0 :: b').getLast? with
          | none => simp at hx
          | some z =>
            rw [hx] at hlast
            simpa using hlast
        have hlines_b : ∀ l ∈ splitLines (b0 :: b'), lineNoTitleStart l = true := by
          intro l hl
          refine hlines l ?_
          rw [splitLines_append a hna (b0 :: b')]
          exact List.mem_cons_of_mem a hl
        have hlen_b : (b0 :: b').length ≤ n := by
          simp only [List.length_append, List.length_cons] at hlen ⊢
          omega
        rw [List.append_assoc, List.cons_append,
          findTitleAux_skip_line a hna hla ((b0 :: b') ++ rest),
          ih (b0 :: b') hlen_b (Or.inr hlast_b) hlines_b rest]

theorem splitLines_no_nl : ∀ (u : List Char), '\n' ∉ u → splitLines u = [u] := by
  intro u
  induction u with
  | nil => intro _; rfl
  | cons c t ih =>
    intro h
    have hc : ¬ c = '\n' := fun hx => h (by rw [hx]; exact List.mem_cons_self _ _)
    rw [splitLines_cons_ne _ hc, ih (fun hx => h (List.mem_cons_of_mem c hx))]
    rfl

/-- When no line can start a title match, the multiline search fails. -/
theorem findTitleAux_none_clean : ∀ (n : Nat) (u : List Char), u.length ≤ n →
    (∀ l ∈ splitLines u, lineNoTitleStart l = true) →
    findTitleAux true u = none := by
  intro n
  induction n with
  | zero =>
    intro u hlen _
    have hu : u = [] := List.eq_nil_of_length_eq_zero (Nat.le_zero.mp hlen)
    subst hu
    rfl
  | succ n ih =>
    intro u hlen hlines
    by_cases hmem : '\n' ∈ u
    · obtain ⟨a, b, rfl, hna⟩ := split_first_nl u hmem
      have hla : lineNoTitleStart a = true := by
        refine hlines a ?_
        rw [splitLines_append a hna b]
        exact List.mem_cons_self _ _
      have hlines_b : ∀ l ∈ splitLines b, lineNoTitleStart l = true := by
        intro l hl
        refine hlines l ?_
        rw [splitLines_append a hna b]
        exact List.mem_cons_of_mem a hl
      have hlen_b : b.length ≤ n := by
        simp only [List.length_append, List.length_cons] at hlen
        omega
      rw [findTitleAux_skip_line a hna hla b]
      exact ih b hlen_b hlines_b
    · have hla : lineNoTitleStart u = true := by
        refine hlines u ?_
        rw [splitLines_no_nl u hmem]
        exact List.mem_cons_self _ _
      exact findTitleAux_last_line u hmem hla

theorem strip_dropWhile (l : List Char) : strip (l.dropWhile isSpace) = strip l := by
  unfold strip
  rw [List.dropWhile_idempotent]

/-- `#\s+(.+)$` at a genuine `# ` heading captures the body after its
leading whitespace (the greedy `\s+` eats that whitespace). -/
theorem matchTitleAt_heading (body tail : List Char)
    (hnl : '\n' ∉ body) (hsp : ∃ c ∈ body, isSpace c = false)
    (htail : tail = [] ∨ ∃ t', tail = '\n' :: t') :
    matchTitleAt ('#' :: ' ' :: (body ++ tail)) = some (body.dropWhile isSpace) := by
  have hdw : body.dropWhile isSpace ≠ [] := by
    intro hx
    rw [List.dropWhile_eq_nil_iff] at hx
    obtain ⟨c, hc, hcs⟩ := hsp
    rw [hx c hc] at hcs
    exact Bool.noConfusion hcs
  obtain ⟨c0, b', hcb⟩ : ∃ c0 b', body.dropWhile isSpace = c0 :: b' := by
    cases hx : body.dropWhile isSpace with
    | nil => exact absurd hx hdw
    | cons c0 b' => exact ⟨c0, b', rfl⟩
  have hc0 : isSpace c0 = false := by
    have hh := List.head?_dropWhile_not isSpace body
    rw [hcb] at hh
    simpa using hh
  have hc0nl : (c0 == '\n') = false := by
    simp only [beq_eq_false_iff_ne, ne_eq]
    rintro rfl
    exact absurd hc0 (by decide)
  have hbody : body = body.takeWhile isSpace ++ (c0 :: b') := by
    rw [← hcb, List.takeWhile_append_dropWhile]
  have hb'nl : '\n' ∉ b' := by
    intro hx
    exact hnl (by rw [hbody]; simp [hx])
  have harr : body ++ tail = body.takeWhile isSpace ++ (c0 :: (b' ++ tail)) := by
    conv_lhs => rw [hbody]
    simp
  have htwall : ∀ x ∈ body.takeWhile isSpace, isSpace x = true := by
    intro x hx
    exact List.mem_takeWhile_imp hx
  have htw : (body ++ tail).takeWhile isSpace = body.takeWhile isSpace := by
    rw [harr]
    exact (takeWhile_planted htwall hc0).1
  have hspc : isSpace ' ' = true := by decide
  have hws : wsRun (' ' :: (body ++ tail)) = (body.takeWhile isSpace).length + 1 := by
    unfold wsRun
    rw [List.takeWhile_cons, hspc]
    simp [htw]
  have hdrop : (' ' :: (body ++ tail)).drop ((body.takeWhile isSpace).length + 1) =
      c0 :: (b' ++ tail) := by
    rw [harr, show (' ' :: (body.takeWhile isSpace ++ (c0 :: (b' ++ tail)))) =
        ((' ' :: body.takeWhile isSpace) ++ (c0 :: (b' ++ tail))) from rfl]
    exact List.drop_left' (by simp)
  have hdot : dotPlus (c0 :: (b' ++ tail)) = some (c0 :: b') := by
    unfold dotPlus
    have htwb : (c0 :: (b' ++ tail)).takeWhile (fun c => !(c == '\n')) = c0 :: b' := by
      rcases htail with rfl | ⟨t', rfl⟩
      · rw [List.append_nil]
        refine takeWhile_all ?_
        intro x hx
        rcases List.mem_cons.mp hx with rfl | hx2
        · simp [hc0nl]
        · simp only [Bool.not_eq_true']
          simp only [beq_eq_false_iff_ne, ne_eq]
          rintro rfl
          exact hb'nl hx2
      · rw [show c0 :: (b' ++ '\n' :: t') = (c0 :: b') ++ '\n' :: t' from by simp]
        refine (takeWhile_planted ?_ (by simp)).1
        intro x hx
        rcases List.mem_cons.mp hx with rfl | hx2
        · simp [hc0nl]
        · simp only [Bool.not_eq_true']
          simp only [beq_eq_false_iff_ne, ne_eq]
          rintro rfl
          exact hb'nl hx2
    rw [htwb]
    simp
  have htry : tryWs ((body.takeWhile isSpace).length + 1) (' ' :: (body ++ tail)) =
      some (c0 :: b') := by
    rw [tryWs, hdrop, hdot]
  rw [show matchTitleAt ('#' :: ' ' :: (body ++ tail)) =
      (if 0 < wsRun (' ' :: (body ++ tail)) then
        tryWs (wsRun (' ' :: (body ++ tail))) (' ' :: (body ++ tail))
      else none) from by simp [matchTitleAt]]
  rw [hws, if_pos (by omega), htry, hcb]

/-- **C4 counterexample.**  The title regex accepts any whitespace after the
`#`, not only a space: on the document `"#\tFoo"`, whose only line does not
begin with `"# "`, `extract_title` returns `"Foo"` instead of the claimed
date fallback. -/
theorem extract_title_tab :
    extract_title (("12 Oct 2025").data) (("#\tFoo").data) = ("Foo").data ∧
    (∀ l ∈ splitLines (("#\tFoo").data), l.take 2 ≠ ("# ").data) ∧
    ("Foo").data ≠ ("PRD – ").data ++ ("12 Oct 2025").data := by
  refine ⟨by decide, by decide, by decide⟩

/-- **C4 (amended).**  `extract_title` matches a line-start `#` followed by
one or more whitespace characters (`\s+`, so a tab also matches and the run
may even cross the line break) and then text; a line beginning `##` or
`###` is never matched; when the first candidate line is `"# " + body` with
`body` newline-free and containing a non-whitespace character, and every
earlier line either does not start with `#` or continues its `#` with a
non-whitespace character, the result is `body` trimmed; when every line of
the document is of that harmless shape, the result is the fallback
`"PRD – <current date formatted as DD Mon YYYY>"`. -/
theorem extract_title_spec (today : List Char) :
    (∀ rest : List Char, matchTitleAt ('#' :: '#' :: rest) = none) ∧
    (∀ u body tail : List Char, (u = [] ∨ u.getLast? = some '\n') →
      (∀ l ∈ splitLines u, lineNoTitleStart l = true) →
      '\n' ∉ body → (∃ c ∈ body, isSpace c = false) →
      (tail = [] ∨ ∃ t', tail = '\n' :: t') →
      extract_title today (u ++ ('#' :: ' ' :: (body ++ tail))) = strip body) ∧
    (∀ prd : List Char, (∀ l ∈ splitLines prd, lineNoTitleStart l = true) →
      extract_title today prd = ("PRD – ").data ++ today) := by
  refine ⟨?_, ?_, ?_⟩
  · intro rest
    exact matchTitleAt_hash_nonspace (by decide) rest
  · intro u body tail hu hul hnl hsp htail
    unfold extract_title
    rw [findTitleAux_skip_clean u.length u (le_refl _) hu hul]
    have hstep : findTitleAux true ('#' :: ' ' :: (body ++ tail)) =
        some (body.dropWhile isSpace) := by
      have hm := matchTitleAt_heading body tail hnl hsp htail
      simp [findTitleAux, hm]
    rw [hstep]
    exact strip_dropWhile body
  · intro prd hl
    unfold extract_title
    rw [findTitleAux_none_clean prd.length prd (le_refl _) hl]

/-- Witness for C4 (amended): a `##` line, a document with an intro line
before its `# My Title ` heading, and a document with no whitespace after
any line-start `#`. -/
theorem extract_title_spec_witness :
    matchTitleAt ('#' :: '#' :: ((" Problem").data)) = none ∧
    extract_title (("12 Oct 2025").data)
        ((("intro line\n").data ++
          ('#' :: ' ' :: ((("My Title ").data) ++ (("\n## Sec").data))))) =
      strip (("My Title ").data) ∧
    extract_title (("12 Oct 2025").data) (("no heading here\n#x only").data) =
      ("PRD – ").data ++ ("12 Oct 2025").data := by
  obtain ⟨h1, h2, h3⟩ := extract_title_spec (("12 Oct 2025").data)
  refine ⟨h1 _, ?_, h3 _ (by decide)⟩
  refine h2 (("intro line\n").data) (("My Title ").data) (("\n## Sec").data)
    (Or.inr (by decide)) (by decide) (by decide) (by decide) ?_
  right
  exact ⟨(("## Sec").data), rfl⟩
